import Mathlib

/-!
# Verification of the dashboard aggregation core

Shallow embedding of the four data-aggregation functions of
`src/dashboard/dashboard.py` (`create_daily_orders_df`,
`create_sum_order_items_df`, `create_by_city_df`, `create_rfm_df`) and
proofs of the properties the specification states about them.

Modelling conventions:
* A table is a `List OrderLine`, rows in their original order.
* Identifiers (`order_id`, `customer_id`) and the string-valued labels
  (`product_category_name_english`, `customer_city`) are modelled as `Nat`,
  which is order-isomorphic to the lexicographic order pandas sorts by.
* `order_purchase_timestamp` is seconds since the epoch (`Nat`); taking the
  calendar date (`dt.date` / daily resampling bins) is division by 86400.
* `price` is an exact integer amount (`Int`); the claims about revenue are
  stated over exact arithmetic, setting aside floating-point rounding.
* `df.groupby(key)` with pandas' default `sort=True` yields one group per
  distinct key, groups ordered by ascending key: embedded as an insertion
  sort of the deduplicated key list.
* `df.resample(rule='D', on=ts)` bins rows into every calendar day from the
  earliest to the latest day present (empty bins included, with `sum` = 0
  and `nunique` = 0): embedded with `List.range'` over that day span.
* `Series.sort_values` is embedded as a stable insertion sort on the value
  column (the deterministic reading of the sort, applied to the key-sorted
  groups that `groupby` produces).
-/

/-- One row of the canonical order-line table (the `OrderLine` data model). -/
structure OrderLine where
  order_id : Nat
  customer_id : Nat
  order_purchase_timestamp : Nat
  category : Nat
  price : Int
  customer_city : Nat
deriving DecidableEq, Repr

/-- Calendar day of a row's purchase timestamp (midnight-aligned bucket). -/
def dayOf (r : OrderLine) : Nat :=
  r.order_purchase_timestamp / 86400

/-- pandas `Series.nunique`: number of distinct values of a list. -/
def nunique (l : List Nat) : Nat :=
  l.dedup.length

/-- Insert a key into an ascending-sorted list of keys. -/
def insertNat (x : Nat) : List Nat → List Nat
  | [] => [x]
  | y :: ys => if x ≤ y then x :: y :: ys else y :: insertNat x ys

/-- Ascending insertion sort on keys. -/
def sortNat : List Nat → List Nat
  | [] => []
  | x :: xs => insertNat x (sortNat xs)

/-- The group keys produced by `df.groupby(f)` with the default
`sort=True`: the distinct values of `f` over the rows, ascending. -/
def groupKeys (f : OrderLine → Nat) (rows : List OrderLine) : List Nat :=
  sortNat (rows.map f).dedup

/-- One output row of `create_daily_orders_df` (a `DailyTrendPoint`):
the bin's calendar day, the distinct-order count and the revenue sum. -/
structure DailyRow where
  order_purchase_timestamp : Nat
  order_count : Nat
  revenue : Int
deriving DecidableEq, Repr

/-- Earliest calendar day among the rows (seed irrelevant on `[]`). -/
def minDay (rows : List OrderLine) : Nat :=
  (rows.map dayOf).foldr min ((rows.map dayOf).headD 0)

/-- Latest calendar day among the rows. -/
def maxDay (rows : List OrderLine) : Nat :=
  (rows.map dayOf).foldr max 0

/-- The rows falling in the daily bin `d`. -/
def dayBucket (rows : List OrderLine) (d : Nat) : List OrderLine :=
  rows.filter (fun r => dayOf r = d)

/-- `create_daily_orders_df`: resample the table to daily frequency,
aggregating `order_id` with `nunique` and `price` with `sum`.  pandas'
resampler emits one bin for every calendar day from the earliest to the
latest day present, empty bins included (they aggregate to 0). -/
def create_daily_orders_df (rows : List OrderLine) : List DailyRow :=
  if rows.isEmpty then []
  else
    (List.range' (minDay rows) (maxDay rows - minDay rows + 1)).map fun d =>
      { order_purchase_timestamp := d
        order_count := nunique ((dayBucket rows d).map (·.order_id))
        revenue := ((dayBucket rows d).map (·.price)).sum }

/-- One output row of `create_sum_order_items_df` (a `CategoryPerformance`):
a category and its summed revenue (column kept named `price` as in the code). -/
structure CatRow where
  product_category_name_english : Nat
  price : Int
deriving DecidableEq, Repr

/-- The per-category revenue sums as `groupby("product_category_name_english")`
produces them: one row per distinct category, ascending by category. -/
def catGroups (rows : List OrderLine) : List CatRow :=
  (groupKeys (·.category) rows).map fun c =>
    { product_category_name_english := c
      price := ((rows.filter (fun r => r.category = c)).map (·.price)).sum }

/-- Stable insertion (descending by `price`): the new row goes before the
first existing row whose price it reaches. -/
def insertByPriceDesc (x : CatRow) : List CatRow → List CatRow
  | [] => [x]
  | y :: ys => if y.price ≤ x.price then x :: y :: ys else y :: insertByPriceDesc x ys

/-- Stable sort of category rows, descending by `price`
(`Series.sort_values(ascending=False)`). -/
def sortByPriceDesc : List CatRow → List CatRow
  | [] => []
  | x :: xs => insertByPriceDesc x (sortByPriceDesc xs)

/-- `create_sum_order_items_df`: group by category, sum `price` per group,
sort descending by the summed revenue. -/
def create_sum_order_items_df (rows : List OrderLine) : List CatRow :=
  sortByPriceDesc (catGroups rows)

/-- One output row of `create_by_city_df` (a `CityDistribution`). -/
structure CityRow where
  customer_city : Nat
  customer_count : Nat
deriving DecidableEq, Repr

/-- `create_by_city_df`: group by `customer_city` and count distinct
`customer_id` per city (`nunique`). -/
def create_by_city_df (rows : List OrderLine) : List CityRow :=
  (groupKeys (·.customer_city) rows).map fun c =>
    { customer_city := c
      customer_count :=
        nunique ((rows.filter (fun r => r.customer_city = c)).map (·.customer_id)) }

/-- One output row of `create_rfm_df` (a `CustomerRFM`):
`max_order_timestamp` is the customer's last purchase calendar date. -/
structure RfmRow where
  customer_id : Nat
  max_order_timestamp : Nat
  frequency : Nat
  monetary : Int
  recency : Int
deriving DecidableEq, Repr

/-- The rows belonging to customer `c`. -/
def custRows (rows : List OrderLine) (c : Nat) : List OrderLine :=
  rows.filter (fun r => r.customer_id = c)

/-- Max of the raw purchase timestamps of a list of rows. -/
def maxTimestamp (l : List OrderLine) : Nat :=
  (l.map (·.order_purchase_timestamp)).foldr max 0

/-- `df["order_purchase_timestamp"].dt.date.max()`: the single reference
date of an RFM run, the latest calendar day over the whole input. -/
def recentDate (rows : List OrderLine) : Nat :=
  (rows.map dayOf).foldr max 0

/-- `create_rfm_df`: group by `customer_id` (keys ascending), take the max
timestamp, the distinct-order count and the price sum per customer, truncate
the max timestamp to a calendar date, and compute recency in whole days
against the global `recentDate` computed once per call. -/
def create_rfm_df (rows : List OrderLine) : List RfmRow :=
  (groupKeys (·.customer_id) rows).map fun c =>
    { customer_id := c
      max_order_timestamp := maxTimestamp (custRows rows c) / 86400
      frequency := nunique ((custRows rows c).map (·.order_id))
      monetary := ((custRows rows c).map (·.price)).sum
      recency := (recentDate rows : Int) - (maxTimestamp (custRows rows c) / 86400 : Nat) }

/-- First-occurrence (encounter) order of the distinct values of `f`,
used to state the spec's "original encounter order" tie-break. -/
def encounterKeys (f : OrderLine → Nat) (rows : List OrderLine) : List Nat :=
  rows.foldl (fun acc r => if f r ∈ acc then acc else acc ++ [f r]) []

/-! ## Facts about the key sort used by `groupby` -/

theorem insertNat_perm (x : Nat) (l : List Nat) : List.Perm (insertNat x l) (x :: l) := by
  induction l with
  | nil => simp [insertNat]
  | cons y ys ih =>
    simp only [insertNat]
    split
    · exact List.Perm.refl _
    · exact (ih.cons y).trans (List.Perm.swap x y ys)

theorem sortNat_perm (l : List Nat) : List.Perm (sortNat l) l := by
  induction l with
  | nil => exact List.Perm.refl _
  | cons x xs ih => exact (insertNat_perm x (sortNat xs)).trans (ih.cons x)

theorem insertNat_pairwise_le (x : Nat) :
    ∀ l : List Nat, l.Pairwise (· ≤ ·) → (insertNat x l).Pairwise (· ≤ ·) := by
  intro l
  induction l with
  | nil => intro _; simp [insertNat]
  | cons y ys ih =>
    intro h
    obtain ⟨h1, h2⟩ := List.pairwise_cons.mp h
    by_cases hxy : x ≤ y
    · simp only [insertNat, if_pos hxy]
      refine List.pairwise_cons.mpr ⟨?_, h⟩
      intro z hz
      rcases List.mem_cons.mp hz with rfl | hz2
      · exact hxy
      · exact le_trans hxy (h1 z hz2)
    · simp only [insertNat, if_neg hxy]
      refine List.pairwise_cons.mpr ⟨?_, ih h2⟩
      intro z hz
      rcases List.mem_cons.mp ((insertNat_perm x ys).mem_iff.mp hz) with rfl | hz2
      · exact le_of_not_le hxy
      · exact h1 z hz2

theorem sortNat_pairwise_le : ∀ l : List Nat, (sortNat l).Pairwise (· ≤ ·)
  | [] => List.Pairwise.nil
  | x :: xs => insertNat_pairwise_le x (sortNat xs) (sortNat_pairwise_le xs)

theorem groupKeys_nodup (f : OrderLine → Nat) (rows : List OrderLine) :
    (groupKeys f rows).Nodup :=
  (sortNat_perm _).nodup_iff.mpr ((rows.map f).nodup_dedup)

theorem mem_groupKeys (f : OrderLine → Nat) (rows : List OrderLine) (c : Nat) :
    c ∈ groupKeys f rows ↔ ∃ r ∈ rows, f r = c := by
  unfold groupKeys
  rw [(sortNat_perm _).mem_iff, List.mem_dedup, List.mem_map]

theorem groupKeys_sorted_lt (f : OrderLine → Nat) (rows : List OrderLine) :
    (groupKeys f rows).Pairwise (· < ·) := by
  have hle : (groupKeys f rows).Pairwise (· ≤ ·) := sortNat_pairwise_le _
  have hnd : (groupKeys f rows).Pairwise (· ≠ ·) := groupKeys_nodup f rows
  exact (hle.and hnd).imp fun h => lt_of_le_of_ne h.1 h.2

/-! ## Facts about the fold-based max/min of day numbers -/

theorem le_foldr_max (l : List Nat) (x : Nat) (h : x ∈ l) : x ≤ l.foldr max 0 := by
  induction l with
  | nil => cases h
  | cons y ys ih =>
    rw [List.foldr_cons]
    rcases List.mem_cons.mp h with rfl | h2
    · exact le_max_left _ _
    · exact le_trans (ih h2) (le_max_right _ _)

theorem foldr_max_le (l : List Nat) (b : Nat) (h : ∀ x ∈ l, x ≤ b) : l.foldr max 0 ≤ b := by
  induction l with
  | nil => exact Nat.zero_le b
  | cons y ys ih =>
    rw [List.foldr_cons]
    exact max_le (h y (List.mem_cons_self y ys)) (ih fun x hx => h x (List.mem_cons_of_mem y hx))

theorem foldr_min_le_mem (l : List Nat) (s x : Nat) (h : x ∈ l) : l.foldr min s ≤ x := by
  induction l with
  | nil => cases h
  | cons y ys ih =>
    rw [List.foldr_cons]
    rcases List.mem_cons.mp h with rfl | h2
    · exact min_le_left _ _
    · exact le_trans (min_le_right _ _) (ih h2)

theorem foldr_min_le_seed (l : List Nat) (s : Nat) : l.foldr min s ≤ s := by
  induction l with
  | nil => exact le_refl s
  | cons y ys ih =>
    rw [List.foldr_cons]
    exact le_trans (min_le_right _ _) ih

theorem foldr_max_div (l : List Nat) (c : Nat) :
    l.foldr max 0 / c = (l.map (· / c)).foldr max 0 := by
  induction l with
  | nil => simp
  | cons y ys ih =>
    rw [List.map_cons, List.foldr_cons, List.foldr_cons, ← ih]
    exact Monotone.map_max fun a b hab => Nat.div_le_div_right hab

/-! ## Partition lemmas: summing a value over disjoint groups -/

theorem map_sum_add (K : List Nat) (a b : Nat → Int) :
    (K.map fun k => a k + b k).sum = (K.map a).sum + (K.map b).sum := by
  induction K with
  | nil => simp
  | cons k ks ih =>
    simp only [List.map_cons, List.sum_cons, ih]
    ring

theorem sum_map_single (K : List Nat) (c : Nat) (x : Int) (hK : K.Nodup) (hc : c ∈ K) :
    (K.map fun k => if c = k then x else 0).sum = x := by
  induction K with
  | nil => cases hc
  | cons k ks ih =>
    rw [List.map_cons, List.sum_cons]
    rcases List.mem_cons.mp hc with rfl | hc2
    · have hz : (ks.map fun j => if c = j then x else 0).sum = 0 := by
        have hcong : ∀ j ∈ ks, (if c = j then x else 0) = 0 := by
          intro j hj
          apply if_neg
          intro h
          exact (List.nodup_cons.mp hK).1 (h ▸ hj)
        rw [List.map_congr_left hcong]
        simp
      rw [if_pos rfl, hz, add_zero]
    · have hne : ¬c = k := fun h => (List.nodup_cons.mp hK).1 (h ▸ hc2)
      rw [if_neg hne, ih (List.nodup_cons.mp hK).2 hc2, zero_add]

theorem sum_partition (rows : List OrderLine) (K : List Nat) (key : OrderLine → Nat)
    (v : OrderLine → Int) (hK : K.Nodup) (hcov : ∀ r ∈ rows, key r ∈ K) :
    (K.map fun k => ((rows.filter fun r => key r = k).map v).sum).sum = (rows.map v).sum := by
  induction rows with
  | nil => simp
  | cons r rs ih =>
    have hstep : ∀ k ∈ K, (((r :: rs).filter fun s => key s = k).map v).sum
        = (if key r = k then v r else 0) + ((rs.filter fun s => key s = k).map v).sum := by
      intro k _
      by_cases h : key r = k
      · simp [List.filter_cons, h]
      · simp [List.filter_cons, h]
    rw [List.map_congr_left hstep, map_sum_add K _ _,
      ih fun s hs => hcov s (List.mem_cons_of_mem r hs),
      sum_map_single K (key r) (v r) hK (hcov r (List.mem_cons_self r rs))]
    simp

theorem countP_eq_one_of_nodup (K : List Nat) (a : Nat) (hK : K.Nodup) (ha : a ∈ K) :
    (K.countP fun c => c = a) = 1 := by
  induction K with
  | nil => cases ha
  | cons k ks ih =>
    rw [List.countP_cons]
    by_cases hka : k = a
    · subst hka
      have hz : (ks.countP fun c => c = k) = 0 := by
        rw [List.countP_eq_zero]
        intro j hj
        simp only [decide_eq_true_eq]
        intro h
        exact (List.nodup_cons.mp hK).1 (h ▸ hj)
      simp [hz]
    · have ha2 : a ∈ ks := (List.mem_cons.mp ha).resolve_left fun h => hka h.symm
      simp [ih (List.nodup_cons.mp hK).2 ha2, hka]

/-! ## Coverage of the daily resampling bins -/

theorem mem_daily_bins (rows : List OrderLine) (r : OrderLine) (hr : r ∈ rows) :
    dayOf r ∈ List.range' (minDay rows) (maxDay rows - minDay rows + 1) := by
  rw [List.mem_range'_1]
  have h1 : minDay rows ≤ dayOf r := foldr_min_le_mem _ _ _ (List.mem_map_of_mem dayOf hr)
  have h2 : dayOf r ≤ maxDay rows := le_foldr_max _ _ (List.mem_map_of_mem dayOf hr)
  omega

theorem daily_bins_nodup (rows : List OrderLine) :
    (List.range' (minDay rows) (maxDay rows - minDay rows + 1)).Nodup :=
  (List.pairwise_lt_range' _ _).imp ne_of_lt

/-- C6: the revenues of the daily trend output sum exactly to the total
`price` of the input rows (exact arithmetic). -/
theorem daily_revenue_conservation (rows : List OrderLine) :
    ((create_daily_orders_df rows).map (·.revenue)).sum = (rows.map (·.price)).sum := by
  by_cases hrows : rows.isEmpty
  · cases rows with
    | nil => simp [create_daily_orders_df]
    | cons r rs => simp at hrows
  · rw [create_daily_orders_df, if_neg hrows, List.map_map]
    exact sum_partition rows _ dayOf (·.price) (daily_bins_nodup rows) (mem_daily_bins rows)

/-! ## The descending revenue sort is a permutation of the groups -/

theorem insertByPriceDesc_perm (x : CatRow) (l : List CatRow) :
    List.Perm (insertByPriceDesc x l) (x :: l) := by
  induction l with
  | nil => simp [insertByPriceDesc]
  | cons y ys ih =>
    simp only [insertByPriceDesc]
    split
    · exact List.Perm.refl _
    · exact (ih.cons y).trans (List.Perm.swap x y ys)

theorem sortByPriceDesc_perm (l : List CatRow) : List.Perm (sortByPriceDesc l) l := by
  induction l with
  | nil => exact List.Perm.refl _
  | cons x xs ih => exact (insertByPriceDesc_perm x (sortByPriceDesc xs)).trans (ih.cons x)

/-- C4: the category rows' revenues sum to the total input revenue, and the
category of every input row appears in exactly one output entry. -/
theorem category_partition (rows : List OrderLine) :
    ((create_sum_order_items_df rows).map (·.price)).sum = (rows.map (·.price)).sum
    ∧ ∀ r ∈ rows,
        ((create_sum_order_items_df rows).filter
            fun o => o.product_category_name_english = r.category).length = 1 := by
  constructor
  · rw [create_sum_order_items_df,
      ((sortByPriceDesc_perm (catGroups rows)).map (·.price)).sum_eq]
    rw [catGroups, List.map_map]
    exact sum_partition rows _ (·.category) (·.price) (groupKeys_nodup _ rows)
      fun r hr => (mem_groupKeys _ rows _).mpr ⟨r, hr, rfl⟩
  · intro r hr
    rw [create_sum_order_items_df, ← List.countP_eq_length_filter,
      (sortByPriceDesc_perm (catGroups rows)).countP_eq, catGroups, List.countP_map]
    exact countP_eq_one_of_nodup _ _ (groupKeys_nodup _ rows)
      ((mem_groupKeys _ rows _).mpr ⟨r, hr, rfl⟩)

/-- C10: the geographic output is sorted strictly ascending by city and the
RFM output strictly ascending by customer id (the `groupby` key order). -/
theorem groupby_key_order (rows : List OrderLine) :
    ((create_by_city_df rows).map (·.customer_city)).Pairwise (· < ·)
    ∧ ((create_rfm_df rows).map (·.customer_id)).Pairwise (· < ·) := by
  constructor
  · rw [create_by_city_df, List.map_map]
    exact List.Pairwise.map _ (fun a b h => h) (groupKeys_sorted_lt _ rows)
  · rw [create_rfm_df, List.map_map]
    exact List.Pairwise.map _ (fun a b h => h) (groupKeys_sorted_lt _ rows)

/-- C8: one output row per distinct city, and each row's `customer_count` is
the cardinality of the set of customer ids seen for that city. -/
theorem by_city_distinct_customers (rows : List OrderLine) :
    ((create_by_city_df rows).map (·.customer_city)).Nodup
    ∧ (∀ c : Nat,
        c ∈ (create_by_city_df rows).map (·.customer_city) ↔ ∃ r ∈ rows, r.customer_city = c)
    ∧ ∀ out ∈ create_by_city_df rows,
        out.customer_count
          = ((rows.filter fun r => r.customer_city = out.customer_city).map
              (·.customer_id)).toFinset.card := by
  refine ⟨?_, ?_, ?_⟩
  · rw [create_by_city_df, List.map_map]
    exact List.Nodup.map (fun a b h => h) (groupKeys_nodup _ rows)
  · intro c
    rw [create_by_city_df, List.map_map]
    constructor
    · intro hc
      obtain ⟨a, ha, rfl⟩ := List.mem_map.mp hc
      exact (mem_groupKeys _ rows _).mp ha
    · intro hc
      exact List.mem_map.mpr ⟨c, (mem_groupKeys _ rows c).mpr hc, rfl⟩
  · intro out hout
    rw [create_by_city_df] at hout
    obtain ⟨c, hc, rfl⟩ := List.mem_map.mp hout
    exact (List.card_toFinset _).symm

/-! ## Daily trend rows: bin structure and zero-filled gap days -/

/-- Two single-line orders two days apart: day 1 lies between them and has
no qualifying order. -/
def exGap : List OrderLine :=
  [{ order_id := 1, customer_id := 1, order_purchase_timestamp := 0,
     category := 0, price := 10, customer_city := 1 },
   { order_id := 2, customer_id := 2, order_purchase_timestamp := 172800,
     category := 0, price := 20, customer_city := 1 }]

/-- C1 counterexample: on `exGap`, day 1 has zero matching rows yet the
daily trend output contains a zero-filled entry for it, so the output is
not "one entry per day that has at least one qualifying order". -/
theorem daily_gap_zero_filled :
    create_daily_orders_df exGap
      = [{ order_purchase_timestamp := 0, order_count := 1, revenue := 10 },
         { order_purchase_timestamp := 1, order_count := 0, revenue := 0 },
         { order_purchase_timestamp := 2, order_count := 1, revenue := 20 }]
    ∧ exGap.filter (fun r => dayOf r = 1) = [] := by
  decide

/-- C1 (amended): for a non-empty input the daily trend output has strictly
increasing dates, its dates are exactly the calendar days from the earliest
to the latest day of the input (inclusive), and a day of that span with no
matching rows still yields an entry, zero-filled. -/
theorem daily_bins_structure (rows : List OrderLine) (h : rows ≠ []) :
    ((create_daily_orders_df rows).map (·.order_purchase_timestamp)).Pairwise (· < ·)
    ∧ (∀ d : Nat,
        d ∈ (create_daily_orders_df rows).map (·.order_purchase_timestamp) ↔
          minDay rows ≤ d ∧ d ≤ maxDay rows)
    ∧ ∀ d : Nat, minDay rows ≤ d → d ≤ maxDay rows → (∀ r ∈ rows, dayOf r ≠ d) →
        DailyRow.mk d 0 0 ∈ create_daily_orders_df rows := by
  have hlo : minDay rows ≤ maxDay rows := by
    cases rows with
    | nil => exact absurd rfl h
    | cons r rs =>
      exact le_trans
        (foldr_min_le_mem _ _ _ (List.mem_map_of_mem dayOf (List.mem_cons_self r rs)))
        (le_foldr_max _ _ (List.mem_map_of_mem dayOf (List.mem_cons_self r rs)))
  have hne : ¬rows.isEmpty := by
    cases rows with
    | nil => exact absurd rfl h
    | cons r rs => simp
  refine ⟨?_, ?_, ?_⟩
  · rw [create_daily_orders_df, if_neg hne, List.map_map]
    exact List.Pairwise.map _ (fun a b hab => hab) (List.pairwise_lt_range' _ _)
  · intro d
    rw [create_daily_orders_df, if_neg hne, List.map_map]
    constructor
    · intro hd
      obtain ⟨a, ha, had⟩ := List.mem_map.mp hd
      have had2 : a = d := had
      subst had2
      rw [List.mem_range'_1] at ha
      omega
    · intro hd
      refine List.mem_map.mpr ⟨d, ?_, rfl⟩
      rw [List.mem_range'_1]
      omega
  · intro d h1 h2 h3
    rw [create_daily_orders_df, if_neg hne]
    refine List.mem_map.mpr ⟨d, ?_, ?_⟩
    · rw [List.mem_range'_1]
      omega
    · have hb : dayBucket rows d = [] := by
        rw [dayBucket, List.filter_eq_nil_iff]
        intro r hr
        simpa using h3 r hr
      simp [hb, nunique]

/-- C1 witness: the amended statement holds on the concrete table `exGap`. -/
theorem daily_bins_structure_witness :
    exGap ≠ [] ∧
      (((create_daily_orders_df exGap).map (·.order_purchase_timestamp)).Pairwise (· < ·)
      ∧ (∀ d : Nat,
          d ∈ (create_daily_orders_df exGap).map (·.order_purchase_timestamp) ↔
            minDay exGap ≤ d ∧ d ≤ maxDay exGap)
      ∧ ∀ d : Nat, minDay exGap ≤ d → d ≤ maxDay exGap → (∀ r ∈ exGap, dayOf r ≠ d) →
          DailyRow.mk d 0 0 ∈ create_daily_orders_df exGap) :=
  ⟨by decide, daily_bins_structure exGap (by decide)⟩

/-! ## RFM: the recency reference date -/

/-- C3: the customer's `max_order_timestamp` is the latest calendar day
among that customer's own rows, and `recency` is the latest calendar day of
the entire input minus it — one reference value shared by every row of the
same run. -/
theorem rfm_recency_reference (rows : List OrderLine) (out : RfmRow) (h : rows ≠ [])
    (hout : out ∈ create_rfm_df rows) :
    out.max_order_timestamp
      = ((rows.filter fun r => r.customer_id = out.customer_id).map dayOf).foldr max 0
    ∧ out.recency
      = (((rows.map dayOf).foldr max 0 : Nat) : Int) - (out.max_order_timestamp : Int) := by
  rw [create_rfm_df] at hout
  obtain ⟨c, hc, rfl⟩ := List.mem_map.mp hout
  constructor
  · show maxTimestamp (custRows rows c) / 86400 = _
    rw [maxTimestamp, foldr_max_div, List.map_map]
    rfl
  · rfl

/-- C3 witness: the reference-date property at a concrete input and row. -/
theorem rfm_recency_reference_witness :
    exGap ≠ []
    ∧ ({ customer_id := 1, max_order_timestamp := 0, frequency := 1, monetary := 10,
         recency := 2 } : RfmRow) ∈ create_rfm_df exGap
    ∧ (({ customer_id := 1, max_order_timestamp := 0, frequency := 1, monetary := 10,
          recency := 2 } : RfmRow).max_order_timestamp
        = ((exGap.filter fun r => r.customer_id = 1).map dayOf).foldr max 0
      ∧ (({ customer_id := 1, max_order_timestamp := 0, frequency := 1, monetary := 10,
            recency := 2 } : RfmRow).recency
          = (((exGap.map dayOf).foldr max 0 : Nat) : Int) - (0 : Int))) :=
  ⟨by decide, by decide, rfm_recency_reference exGap _ (by decide) (by decide)⟩

/-- C7: every row of the RFM output has non-negative recency. -/
theorem rfm_recency_nonneg (rows : List OrderLine) (out : RfmRow) (h : rows ≠ [])
    (hout : out ∈ create_rfm_df rows) : 0 ≤ out.recency := by
  rw [create_rfm_df] at hout
  obtain ⟨c, hc, rfl⟩ := List.mem_map.mp hout
  show (0 : Int) ≤ (recentDate rows : Int) - ((maxTimestamp (custRows rows c) / 86400 : Nat) : Int)
  rw [sub_nonneg, Nat.cast_le]
  rw [maxTimestamp, foldr_max_div, recentDate]
  apply foldr_max_le
  intro x hx
  rw [List.map_map] at hx
  obtain ⟨r, hr, rfl⟩ := List.mem_map.mp hx
  exact le_foldr_max _ _ (List.mem_map_of_mem dayOf (List.mem_filter.mp hr).1)

/-- C7 witness: non-negative recency at a concrete input and row. -/
theorem rfm_recency_nonneg_witness :
    exGap ≠ []
    ∧ ({ customer_id := 2, max_order_timestamp := 2, frequency := 1, monetary := 20,
         recency := 0 } : RfmRow) ∈ create_rfm_df exGap
    ∧ (0 : Int) ≤ ({ customer_id := 2, max_order_timestamp := 2, frequency := 1,
                     monetary := 20, recency := 0 } : RfmRow).recency :=
  ⟨by decide, by decide, rfm_recency_nonneg exGap _ (by decide) (by decide)⟩

/-! ## Counting distinct orders across daily bins -/

/-- The (calendar day, order id) pair of a row. -/
def dayOrderPair (r : OrderLine) : Nat × Nat :=
  (dayOf r, r.order_id)

theorem nunique_bucket_eq_fiber (rows : List OrderLine) (d : Nat) :
    nunique ((dayBucket rows d).map (·.order_id))
      = ((rows.map dayOrderPair).toFinset.filter fun p => p.1 = d).card := by
  have himg : (rows.map dayOrderPair).toFinset.filter (fun p => p.1 = d)
      = ((dayBucket rows d).map (·.order_id)).toFinset.image fun o => (d, o) := by
    ext p
    simp only [Finset.mem_filter, List.mem_toFinset, List.mem_map, Finset.mem_image,
      dayBucket, List.mem_filter, dayOrderPair, decide_eq_true_eq]
    constructor
    · rintro ⟨⟨r, hr, rfl⟩, hd⟩
      have hd2 : dayOf r = d := hd
      exact ⟨r.order_id, ⟨r, ⟨hr, hd2⟩, rfl⟩, by rw [hd2]⟩
    · rintro ⟨o, ⟨r, ⟨hr, hd⟩, rfl⟩, rfl⟩
      exact ⟨⟨r, hr, by rw [hd]⟩, rfl⟩
  rw [nunique, ← List.card_toFinset, himg, Finset.card_image_of_injective]
  exact fun a b hab => (Prod.ext_iff.mp hab).2

theorem sum_nunique_eq_pairs (rows : List OrderLine) (K : List Nat) (hK : K.Nodup)
    (hcov : ∀ r ∈ rows, dayOf r ∈ K) :
    (K.map fun d => nunique ((dayBucket rows d).map (·.order_id))).sum
      = (rows.map dayOrderPair).toFinset.card := by
  rw [List.map_congr_left fun d _ => nunique_bucket_eq_fiber rows d,
    ← List.sum_toFinset _ hK]
  have hmem : ∀ p ∈ (rows.map dayOrderPair).toFinset, p.1 ∈ K.toFinset := by
    intro p hp
    obtain ⟨r, hr, rfl⟩ := List.mem_map.mp (List.mem_toFinset.mp hp)
    exact List.mem_toFinset.mpr (hcov r hr)
  exact (Finset.card_eq_sum_card_fiberwise hmem).symm

theorem pairs_card_eq_orders (rows : List OrderLine)
    (H : ∀ r ∈ rows, ∀ s ∈ rows, r.order_id = s.order_id → dayOf r = dayOf s) :
    (rows.map dayOrderPair).toFinset.card = (rows.map (·.order_id)).toFinset.card := by
  have himg : (rows.map (·.order_id)).toFinset
      = (rows.map dayOrderPair).toFinset.image Prod.snd := by
    ext o
    simp [dayOrderPair]
  rw [himg, Finset.card_image_of_injOn]
  intro p hp q hq hpq
  obtain ⟨r, hr, rfl⟩ := List.mem_map.mp (List.mem_toFinset.mp hp)
  obtain ⟨s, hs, rfl⟩ := List.mem_map.mp (List.mem_toFinset.mp hq)
  have hd : dayOf r = dayOf s := H r hr s hs hpq
  exact Prod.ext hd hpq

/-- One order with two lines on different calendar days: the per-day
distinct-order counts sum to 2 although only one distinct order id exists. -/
def exSplitOrder : List OrderLine :=
  [{ order_id := 1, customer_id := 1, order_purchase_timestamp := 0,
     category := 0, price := 10, customer_city := 1 },
   { order_id := 1, customer_id := 1, order_purchase_timestamp := 86400,
     category := 0, price := 5, customer_city := 1 }]

/-- C2 counterexample: on `exSplitOrder` the `order_count` values of the
daily trend output sum to 2 while the input has a single distinct
`order_id`, so the claimed equality fails for this table. -/
theorem daily_order_count_counterexample :
    ((create_daily_orders_df exSplitOrder).map (·.order_count)).sum = 2
    ∧ (exSplitOrder.map (·.order_id)).toFinset.card = 1 := by
  decide

/-- C2 (amended): when all rows of an order share one calendar day — as
they do when `order_purchase_timestamp` is a per-order attribute — the
`order_count` values of the daily trend output sum to the number of
distinct order ids of the input.  Without that hypothesis the sum counts
distinct (day, order id) pairs and the claim fails
(`daily_order_count_counterexample`). -/
theorem daily_order_count (rows : List OrderLine)
    (H : ∀ r ∈ rows, ∀ s ∈ rows, r.order_id = s.order_id → dayOf r = dayOf s) :
    ((create_daily_orders_df rows).map (·.order_count)).sum
      = (rows.map (·.order_id)).toFinset.card := by
  by_cases hne : rows.isEmpty
  · cases rows with
    | nil => simp [create_daily_orders_df]
    | cons r rs => simp at hne
  · rw [create_daily_orders_df, if_neg hne, List.map_map]
    exact (sum_nunique_eq_pairs rows _ (daily_bins_nodup rows) (mem_daily_bins rows)).trans
      (pairs_card_eq_orders rows H)

/-- C2 witness: the amended statement at a concrete table satisfying the
one-day-per-order hypothesis. -/
theorem daily_order_count_witness :
    (∀ r ∈ exGap, ∀ s ∈ exGap, r.order_id = s.order_id → dayOf r = dayOf s)
    ∧ ((create_daily_orders_df exGap).map (·.order_count)).sum
        = (exGap.map (·.order_id)).toFinset.card :=
  ⟨by decide, daily_order_count exGap (by decide)⟩

/-! ## Order of the category performance rows -/

/-- Descending revenue, ties in ascending category order: the order the
sorted category table actually realises. -/
def catOrder (a b : CatRow) : Prop :=
  b.price < a.price
  ∨ (a.price = b.price
      ∧ a.product_category_name_english < b.product_category_name_english)

theorem insertByPriceDesc_pairwise (x : CatRow) :
    ∀ l : List CatRow, l.Pairwise catOrder →
      (∀ y ∈ l, x.product_category_name_english < y.product_category_name_english) →
      (insertByPriceDesc x l).Pairwise catOrder := by
  intro l
  induction l with
  | nil =>
    intro _ _
    simp [insertByPriceDesc]
  | cons y ys ih =>
    intro hp hcat
    obtain ⟨h1, h2⟩ := List.pairwise_cons.mp hp
    by_cases hyx : y.price ≤ x.price
    · simp only [insertByPriceDesc, if_pos hyx]
      refine List.pairwise_cons.mpr ⟨?_, hp⟩
      intro z hz
      rcases List.mem_cons.mp hz with rfl | hz2
      · rcases lt_or_eq_of_le hyx with hlt | heq
        · exact Or.inl hlt
        · exact Or.inr ⟨heq.symm, hcat _ (List.mem_cons_self z ys)⟩
      · have hz_le : z.price ≤ y.price := by
          rcases h1 z hz2 with hlt | hte
          · exact le_of_lt hlt
          · exact le_of_eq hte.1.symm
        rcases lt_or_eq_of_le (le_trans hz_le hyx) with hlt | heq
        · exact Or.inl hlt
        · exact Or.inr ⟨heq.symm, hcat z (List.mem_cons_of_mem y hz2)⟩
    · simp only [insertByPriceDesc, if_neg hyx]
      refine List.pairwise_cons.mpr
        ⟨?_, ih h2 fun z hz => hcat z (List.mem_cons_of_mem y hz)⟩
      intro z hz
      rcases List.mem_cons.mp ((insertByPriceDesc_perm x ys).mem_iff.mp hz) with rfl | hz2
      · exact Or.inl (lt_of_not_le hyx)
      · exact h1 z hz2

theorem sortByPriceDesc_pairwise :
    ∀ l : List CatRow,
      l.Pairwise (fun a b =>
        a.product_category_name_english < b.product_category_name_english) →
      (sortByPriceDesc l).Pairwise catOrder := by
  intro l
  induction l with
  | nil =>
    intro _
    exact List.Pairwise.nil
  | cons x xs ih =>
    intro hp
    obtain ⟨h1, h2⟩ := List.pairwise_cons.mp hp
    exact insertByPriceDesc_pairwise x (sortByPriceDesc xs) (ih h2)
      fun y hy => h1 y ((sortByPriceDesc_perm xs).mem_iff.mp hy)

/-- Two categories with equal total revenue, encountered in descending
name order (category 2 first). -/
def exTie : List OrderLine :=
  [{ order_id := 1, customer_id := 1, order_purchase_timestamp := 0,
     category := 2, price := 5, customer_city := 1 },
   { order_id := 2, customer_id := 2, order_purchase_timestamp := 0,
     category := 1, price := 5, customer_city := 1 }]

/-- C5 counterexample: on `exTie` both categories tie at revenue 5; the
encounter order is [2, 1] but the output lists them as [1, 2], so ties are
not broken by original encounter order. -/
theorem sum_order_items_tie_counterexample :
    encounterKeys (·.category) exTie = [2, 1]
    ∧ (create_sum_order_items_df exTie).map (·.product_category_name_english) = [1, 2]
    ∧ (create_sum_order_items_df exTie).map (·.price) = [5, 5] := by
  decide

/-- C5 (amended): the category performance output has exactly one row per
distinct category of the input and is ordered by descending total revenue;
equal-revenue categories appear in ascending category order (the `groupby`
key order), not in original encounter order
(`sum_order_items_tie_counterexample`). -/
theorem sum_order_items_order (rows : List OrderLine) :
    ((create_sum_order_items_df rows).map (·.product_category_name_english)).Nodup
    ∧ (∀ c : Nat,
        c ∈ (create_sum_order_items_df rows).map (·.product_category_name_english) ↔
          ∃ r ∈ rows, r.category = c)
    ∧ (create_sum_order_items_df rows).Pairwise catOrder := by
  refine ⟨?_, ?_, ?_⟩
  · rw [create_sum_order_items_df]
    apply ((sortByPriceDesc_perm
      (catGroups rows)).map (·.product_category_name_english)).nodup_iff.mpr
    rw [catGroups, List.map_map]
    exact List.Nodup.map (fun a b hab => hab) (groupKeys_nodup _ rows)
  · intro c
    rw [create_sum_order_items_df,
      ((sortByPriceDesc_perm
        (catGroups rows)).map (·.product_category_name_english)).mem_iff,
      catGroups, List.map_map]
    constructor
    · intro hc
      obtain ⟨a, ha, hac⟩ := List.mem_map.mp hc
      have hac2 : a = c := hac
      subst hac2
      exact (mem_groupKeys _ rows _).mp ha
    · intro hc
      exact List.mem_map.mpr ⟨c, (mem_groupKeys _ rows c).mpr hc, rfl⟩
  · rw [create_sum_order_items_df]
    apply sortByPriceDesc_pairwise
    rw [catGroups]
    exact List.Pairwise.map _ (fun a b hab => hab) (groupKeys_sorted_lt _ rows)

/-- C9: on an empty filtered table each of the four aggregators returns an
empty output sequence (and, being total functions, without any error). -/
theorem empty_input_safety :
    create_daily_orders_df [] = [] ∧ create_sum_order_items_df [] = [] ∧
      create_by_city_df [] = [] ∧ create_rfm_df [] = [] := by
  refine ⟨rfl, ?_, rfl, ?_⟩ <;> rfl
